import Mathlib

/- Shallow embedding of src/src/extractor/guidance/intersection_normalizer.cpp
   from osrm-backend: the intersection normalizer (CanMerge,
   MergeSegregatedRoads, AdjustForJoiningRoads) together with its inline
   lambda helpers (aroundZero, combineAngles, merge, adjustAngle, get_offset,
   get_corrected_offset).  External collaborators (node-based graph accessors,
   coordinate table, name/suffix tables, mergable-road detector, intersection
   generator, haversine distance) are not part of the translated source; they
   are modelled as components of an environment record `Env`, following the
   collaborator contracts of the specification.  C++ `double` angle values are
   modelled as rationals; C++ in-place vector mutation is modelled by explicit
   list passing. -/

namespace Osrm

/-- A candidate road leaving an intersection, as seen from the incoming road:
graph edge id `eid`, turn `angle` and compass `bearing` in degrees, and the
`entry_allowed` legality flag (data model of the specification, fields as in
the source `ConnectedRoad`). -/
structure ConnectedRoad where
  eid : Nat
  angle : ℚ
  bearing : ℚ
  entry_allowed : Bool
deriving DecidableEq, Repr, Inhabited

/-- Data carried by a graph edge as read through the graph accessor:
street-name identifier and roundabout flag. -/
structure EdgeData where
  name_id : Nat
  roundabout : Bool
deriving DecidableEq, Repr, Inhabited

/-- The reserved name identifier of an unnamed road (EMPTY_NAMEID). -/
def EMPTY_NAMEID : Nat := 0

/-- A geographic coordinate of a graph node. -/
structure Coordinate where
  lat : ℚ
  lon : ℚ
deriving DecidableEq, Repr, Inhabited

/-- Modelled from the spec: the external collaborators consumed by the
normalizer (section 6 of the specification), packaged as one read-only
environment.  `getEdgeData`, `getTarget` and `adjacentEdgeCount` are the graph
accessor (`adjacentEdgeCount n` is the size of `GetAdjacentEdgeRange(n)`),
`nodeCoordinates` the coordinate table, `haversineDistance` the straight-line
distance utility, `requiresNameAnnounced` the name/suffix table check,
`canMergeRoad` the geometric mergable-road detector, and
`intersectionGenerator` the raw candidate-set builder.  The guard margin
constant MAXIMAL_ALLOWED_NO_TURN_DEVIATION (whose numeric value is not part
of the translated source) is threaded into the adjustment pass as an explicit
`margin` argument. -/
structure Env where
  getEdgeData : Nat → EdgeData
  getTarget : Nat → Nat
  adjacentEdgeCount : Nat → Nat
  nodeCoordinates : Nat → Coordinate
  haversineDistance : Coordinate → Coordinate → ℚ
  requiresNameAnnounced : Nat → Nat → Bool
  canMergeRoad : Nat → ConnectedRoad → ConnectedRoad → Bool
  intersectionGenerator : Nat → Nat → List ConnectedRoad

/-- Modelled from the spec: `angularDeviation` of the angle arithmetic
utilities (util/guidance toolkit, not under src/): the smallest absolute
circular distance between two angles, `min (360 - |a - b|) |a - b|`. -/
def angularDeviation (angle other : ℚ) : ℚ :=
  min (360 - |angle - other|) |angle - other|

/-- Source lambda `aroundZero` (intersection_normalizer.cpp, lines 100-102):
the two angles straddle the 0/360 boundary when their plain numeric
difference `max - min` is at least 180. -/
def aroundZero (first second : ℚ) : Prop :=
  max first second - min first second ≥ 180

instance (first second : ℚ) : Decidable (aroundZero first second) :=
  inferInstanceAs (Decidable (max first second - min first second ≥ 180))

/-- Source lambda `combineAngles` (lines 105-116).  The source tests
`!aroundZero` first and returns the plain mean; the branches are flipped
here, which is the same function. -/
def combineAngles (first second : ℚ) : ℚ :=
  if aroundZero first second then
    let offset := angularDeviation first second
    let new_angle := max first second + (1/2) * offset
    if new_angle > 360 then new_angle - 360 else new_angle
  else
    (1/2) * (first + second)

/-- Source lambda `merge` (lines 118-126): keep the road whose entry is
allowed (preferring the first), then overwrite angle and bearing with the
combined values. -/
def merge (first second : ConnectedRoad) : ConnectedRoad :=
  { (if first.entry_allowed then first else second) with
    angle := combineAngles first.angle second.angle,
    bearing := combineAngles first.bearing second.bearing }

/-- Body of `IntersectionNormalizer::CanMerge` (lines 38-65) after the two
element reads: degree check, empty-name veto, same-name requirement, then the
geometric detector. -/
def canMergeImpl (env : Env) (node : Nat) (size : Nat)
    (firstRoad secondRoad : ConnectedRoad) : Bool :=
  let first_data := env.getEdgeData firstRoad.eid
  let second_data := env.getEdgeData secondRoad.eid
  if size ≤ 2 then false
  else if first_data.name_id = EMPTY_NAMEID ∨ second_data.name_id = EMPTY_NAMEID then false
  else if env.requiresNameAnnounced first_data.name_id second_data.name_id then false
  else if !(env.canMergeRoad node firstRoad secondRoad) then false
  else true

/-- CanMerge with the element accesses resolved totally (out-of-range
indices read the default road; every caller inside the normalizer passes
indices in range). -/
def CanMerge (env : Env) (node : Nat) (intersection : List ConnectedRoad)
    (first_index second_index : Nat) : Bool :=
  canMergeImpl env node intersection.length
    (intersection.getD first_index default) (intersection.getD second_index default)

/-- CanMerge with the element accesses made explicit: the source reads
`intersection[first_index]` and `intersection[second_index]` before any
check (lines 43-44), so an out-of-range index is an out-of-range access
(modelled as `none`) even when the degree check alone would decide the
result. -/
def CanMergeChecked (env : Env) (node : Nat) (intersection : List ConnectedRoad)
    (first_index second_index : Nat) : Option Bool :=
  match intersection[first_index]?, intersection[second_index]? with
  | some firstRoad, some secondRoad =>
      some (canMergeImpl env node intersection.length firstRoad secondRoad)
  | _, _ => none

/-- Map over a list with the position of each element (position of the head
is `k`); used to express the angle-shifting loops of the source. -/
def mapWithIndex (f : Nat → ConnectedRoad → ConnectedRoad) :
    Nat → List ConnectedRoad → List ConnectedRoad
  | _, [] => []
  | k, x :: xs => f k x :: mapWithIndex f (k + 1) xs

/-- The two mutually exclusive back-bearing merge branches of
MergeSegregatedRoads (lines 171-197), returning the `merged_first` flag and
the updated intersection.  Branch one (`CanMerge 0 last`): shift interior
angles (indices `1 ≤ i`, `i + 1 < size`) by `(360 - angle[last]) / 2`,
replace entry 0 by the merge of the (unshifted) first and last entries with
its angle forced to 0, and pop the last entry.  Branch two (`CanMerge 0 1`):
shift angles at indices `2 ≤ i` by `- angle[1] / 2`, replace entry 0 by the
merge of entries 0 and 1 with its angle forced to 0, and erase entry 1. -/
def firstMergeStep (env : Env) (node : Nat) (intersection : List ConnectedRoad) :
    Bool × List ConnectedRoad :=
  if CanMerge env node intersection 0 (intersection.length - 1) then
    let correction_factor :=
      (360 - (intersection.getD (intersection.length - 1) default).angle) / 2
    let shifted := mapWithIndex
      (fun i r => if 1 ≤ i ∧ i + 1 < intersection.length
                  then { r with angle := r.angle + correction_factor } else r)
      0 intersection
    let merged :=
      { merge (shifted.getD 0 default) (shifted.getD (shifted.length - 1) default) with
        angle := 0 }
    (true, (shifted.set 0 merged).dropLast)
  else if CanMerge env node intersection 0 1 then
    let correction_factor := (intersection.getD 1 default).angle / 2
    let shifted := mapWithIndex
      (fun i r => if 2 ≤ i
                  then { r with angle := r.angle - correction_factor } else r)
      0 intersection
    let merged :=
      { merge (shifted.getD 0 default) (shifted.getD 1 default) with angle := 0 }
    (true, (shifted.set 0 merged).eraseIdx 1)
  else (false, intersection)

/-- The general merge pass of MergeSegregatedRoads (lines 216-225): scan from
index 2 upward; on a merge with the counter-clockwise neighbour
`getRight index = (index + size - 1) % size`, merge into the neighbour, erase
the current index and re-test the same position; otherwise advance.  The
fuel argument makes the loop structurally recursive; the caller passes more
fuel than the loop can consume, so the fuel never runs out. -/
def generalPass (env : Env) (node : Nat) :
    Nat → Nat → List ConnectedRoad → List ConnectedRoad
  | 0, _, intersection => intersection
  | fuel + 1, index, intersection =>
    if index < intersection.length then
      let right := (index + intersection.length - 1) % intersection.length
      if CanMerge env node intersection index right then
        generalPass env node fuel index
          ((intersection.set right
              (merge (intersection.getD right default) (intersection.getD index default))).eraseIdx
            index)
      else generalPass env node fuel (index + 1) intersection
    else intersection

/-- Modelled from the spec: `ConnectedRoad::compareByAngle` (header not under
src/) orders candidates ascending by angle; the non-strict form is used as
the sorting relation. -/
def byAngle (lhs rhs : ConnectedRoad) : Prop := lhs.angle ≤ rhs.angle

instance : DecidableRel byAngle :=
  fun lhs rhs => inferInstanceAs (Decidable (lhs.angle ≤ rhs.angle))

instance : IsTotal ConnectedRoad byAngle := ⟨fun a b => le_total a.angle b.angle⟩

instance : IsTrans ConnectedRoad byAngle := ⟨fun _ _ _ h h2 => le_trans h h2⟩

/-- IntersectionNormalizer::MergeSegregatedRoads (lines 90-231): early return
on degree at most one, roundabout detection, the two back-bearing merge
branches, the roundabout entry disabling, the general merge pass, and the
final sort by angle (std::sort over compareByAngle, modelled by insertion
sort over the non-strict angle order, which produces a sorted permutation
just as std::sort does). -/
def MergeSegregatedRoads (env : Env) (node : Nat)
    (intersection : List ConnectedRoad) : List ConnectedRoad :=
  if intersection.length ≤ 1 then intersection
  else
    let is_connected_to_roundabout :=
      intersection.any fun road => (env.getEdgeData road.eid).roundabout
    let step := firstMergeStep env node intersection
    let merged_first := step.1
    let afterFirst := step.2
    let afterRoundabout :=
      if merged_first && is_connected_to_roundabout then
        afterFirst.set 0 { afterFirst.getD 0 default with entry_allowed := false }
      else afterFirst
    let afterGeneral := generalPass env node (afterRoundabout.length + 1) 2 afterRoundabout
    List.insertionSort byAngle afterGeneral

/-- Source lambda `adjustAngle` (lines 281-288): add the offset, then wrap by
one full turn if the result left `[0, 360]`. -/
def adjustAngle (angle offset : ℚ) : ℚ :=
  let a := angle + offset
  if a > 360 then a - 360
  else if a < 0 then a + 360
  else a

/-- Source lambda `get_offset` (lines 295-297): half the angular deviation of
the two roads. -/
def get_offset (lhs rhs : ConnectedRoad) : ℚ :=
  (1/2) * angularDeviation lhs.angle rhs.angle

/-- Source lambda `get_corrected_offset` (lines 302-310): limit the offset so
the adjustment stays short of the next turn in the offset direction; if the
offset plus the guard margin would exceed the angular gap to that road, use
half the gap instead. -/
def get_corrected_offset (margin offset : ℚ)
    (road next_road_in_offset_direction : ConnectedRoad) : ℚ :=
  let offset_limit := angularDeviation road.angle next_road_in_offset_direction.angle
  if offset + margin > offset_limit then (1/2) * offset_limit else offset

/-- One iteration of the AdjustForJoiningRoads loop body (lines 262-343) for
the candidate at `index`: look one hop ahead along the candidate edge, skip
on a degenerate next intersection, on distance above 30, or on an adjacent
edge count of at most one; otherwise, if the next intersection merges its
back-bearing to the right (indices 0 and 1) shift this candidate left by the
corrected offset, and if it merges to the left (indices 0 and last) shift it
right. -/
def adjustOne (env : Env) (margin : ℚ) (node_at_intersection : Nat)
    (intersection : List ConnectedRoad) (index : Nat) : List ConnectedRoad :=
  let road := intersection.getD index default
  let next_intersection_along_road :=
    env.intersectionGenerator node_at_intersection road.eid
  if next_intersection_along_road.length ≤ 1 then intersection
  else
    let node_at_next_intersection := env.getTarget road.eid
    if env.haversineDistance (env.nodeCoordinates node_at_intersection)
        (env.nodeCoordinates node_at_next_intersection) > 30 then intersection
    else if env.adjacentEdgeCount node_at_next_intersection ≤ 1 then intersection
    else if CanMerge env node_at_next_intersection next_intersection_along_road 0 1 then
      let offset := get_offset (next_intersection_along_road.getD 0 default)
        (next_intersection_along_road.getD 1 default)
      let corrected_offset := get_corrected_offset margin offset road
        (intersection.getD ((index + 1) % intersection.length) default)
      intersection.set index
        { road with angle := adjustAngle road.angle corrected_offset,
                    bearing := adjustAngle road.bearing corrected_offset }
    else if CanMerge env node_at_next_intersection next_intersection_along_road 0
        (next_intersection_along_road.length - 1) then
      let offset := get_offset (next_intersection_along_road.getD 0 default)
        (next_intersection_along_road.getD
          (next_intersection_along_road.length - 1) default)
      let corrected_offset := get_corrected_offset margin offset road
        (intersection.getD (index - 1) default)
      intersection.set index
        { road with angle := adjustAngle road.angle (-corrected_offset),
                    bearing := adjustAngle road.bearing (-corrected_offset) }
    else intersection

/-- The AdjustForJoiningRoads loop over indices 1 and upward; each step keeps
the list length, so fuel equal to the length is enough. -/
def adjustLoop (env : Env) (margin : ℚ) (node : Nat) :
    Nat → Nat → List ConnectedRoad → List ConnectedRoad
  | 0, _, intersection => intersection
  | fuel + 1, index, intersection =>
    if index < intersection.length then
      adjustLoop env margin node fuel (index + 1) (adjustOne env margin node intersection index)
    else intersection

/-- IntersectionNormalizer::AdjustForJoiningRoads (lines 253-345); `margin`
is the MAXIMAL_ALLOWED_NO_TURN_DEVIATION guard constant threaded in
explicitly. -/
def AdjustForJoiningRoads (env : Env) (margin : ℚ) (node : Nat)
    (intersection : List ConnectedRoad) : List ConnectedRoad :=
  if intersection.length ≤ 1 then intersection
  else adjustLoop env margin node intersection.length 1 intersection

/-- IntersectionNormalizer::operator() (lines 28-33): merge, then adjust. -/
def normalize (env : Env) (margin : ℚ) (node : Nat)
    (intersection : List ConnectedRoad) : List ConnectedRoad :=
  AdjustForJoiningRoads env margin node (MergeSegregatedRoads env node intersection)

/-- Every angle and bearing of the list lies in the closed interval
`[0, 360]` (the observation-point invariant, with the closed upper bound the
source asserts). -/
def InRange (l : List ConnectedRoad) : Prop :=
  ∀ r ∈ l, 0 ≤ r.angle ∧ r.angle ≤ 360 ∧ 0 ≤ r.bearing ∧ r.bearing ≤ 360

/-- The candidate list is ordered by angle, non-strictly, position-wise. -/
def SortedByAngle (l : List ConnectedRoad) : Prop :=
  ∀ j, j < l.length → ∀ i, i < j →
    (l.getD i default).angle ≤ (l.getD j default).angle

/-- Every candidate after the back-bearing entry has a strictly positive
angle. -/
def PosTail (l : List ConnectedRoad) : Prop :=
  ∀ i, i < l.length → 1 ≤ i → 0 < (l.getD i default).angle

/-- The external intersection generator only produces candidates whose angle
lies in `[0, 360]` (collaborator contract from the data model of the
specification). -/
def GenRange (env : Env) : Prop :=
  ∀ n e, ∀ r ∈ env.intersectionGenerator n e, 0 ≤ r.angle ∧ r.angle ≤ 360

section ListLemmas

variable {α : Type}

lemma getD_mem {l : List α} {i : Nat} (d : α) (h : i < l.length) :
    l.getD i d ∈ l := by
  induction l generalizing i with
  | nil => simp at h
  | cons a t ih =>
    cases i with
    | zero => simp
    | succ n =>
      simp only [List.getD_cons_succ]
      exact List.mem_cons_of_mem _ (ih (by simpa using h))

lemma mem_getD {l : List α} {a : α} (d : α) (h : a ∈ l) :
    ∃ i, i < l.length ∧ l.getD i d = a := by
  induction l with
  | nil => simp at h
  | cons b t ih =>
    rcases List.mem_cons.mp h with rfl | hmem
    · exact ⟨0, by simp, by simp⟩
    · obtain ⟨i, hi, hget⟩ := ih hmem
      exact ⟨i + 1, by simpa using hi, by simpa using hget⟩

lemma getD_set_eq {l : List α} {i : Nat} {a : α} (d : α) (h : i < l.length) :
    (l.set i a).getD i d = a := by
  induction l generalizing i with
  | nil => simp at h
  | cons b t ih =>
    cases i with
    | zero => simp
    | succ n => simpa using ih (by simpa using h)

lemma getD_set_ne {l : List α} {i j : Nat} {a : α} (d : α) (h : i ≠ j) :
    (l.set i a).getD j d = l.getD j d := by
  induction l generalizing i j with
  | nil => simp
  | cons b t ih =>
    cases i with
    | zero =>
      cases j with
      | zero => exact absurd rfl h
      | succ m => simp
    | succ n =>
      cases j with
      | zero => simp
      | succ m => simpa using ih (by omega)

lemma getD_eraseIdx_lt {l : List α} {i j : Nat} (d : α) (h : j < i) :
    (l.eraseIdx i).getD j d = l.getD j d := by
  induction l generalizing i j with
  | nil => simp
  | cons b t ih =>
    cases i with
    | zero => omega
    | succ n =>
      cases j with
      | zero => simp
      | succ m => simpa using ih (by omega)

lemma getD_eraseIdx_ge {l : List α} {i j : Nat} (d : α) (h : i ≤ j) :
    (l.eraseIdx i).getD j d = l.getD (j + 1) d := by
  induction l generalizing i j with
  | nil => simp
  | cons b t ih =>
    cases i with
    | zero => simp
    | succ n =>
      cases j with
      | zero => omega
      | succ m => simpa using ih (by omega)

lemma getD_dropLast {l : List α} {j : Nat} (d : α) (h : j + 1 < l.length) :
    l.dropLast.getD j d = l.getD j d := by
  induction l generalizing j with
  | nil => simp at h
  | cons b t ih =>
    cases t with
    | nil => simp at h
    | cons c u =>
      cases j with
      | zero => simp
      | succ m =>
        have := @ih m (by simpa using h)
        simpa using this

lemma mem_of_mem_set {l : List α} {i : Nat} {a b : α} (h : a ∈ l.set i b) :
    a ∈ l ∨ a = b := by
  induction l generalizing i with
  | nil => simp at h
  | cons c t ih =>
    cases i with
    | zero =>
      rcases List.mem_cons.mp h with rfl | hmem
      · exact Or.inr rfl
      · exact Or.inl (List.mem_cons_of_mem _ hmem)
    | succ n =>
      rcases List.mem_cons.mp h with rfl | hmem
      · exact Or.inl (List.mem_cons_self _ _)
      · rcases ih hmem with h1 | h1
        · exact Or.inl (List.mem_cons_of_mem _ h1)
        · exact Or.inr h1

lemma mem_of_mem_eraseIdx {l : List α} {i : Nat} {a : α}
    (h : a ∈ l.eraseIdx i) : a ∈ l :=
  (List.eraseIdx_sublist l i).mem h

lemma length_mapWithIndex (f : Nat → ConnectedRoad → ConnectedRoad)
    (k : Nat) (l : List ConnectedRoad) :
    (mapWithIndex f k l).length = l.length := by
  induction l generalizing k with
  | nil => simp [mapWithIndex]
  | cons a t ih => simp [mapWithIndex, ih]

lemma getD_mapWithIndex (f : Nat → ConnectedRoad → ConnectedRoad)
    {k i : Nat} {l : List ConnectedRoad} (d : ConnectedRoad)
    (h : i < l.length) :
    (mapWithIndex f k l).getD i d = f (k + i) (l.getD i d) := by
  induction l generalizing k i with
  | nil => simp at h
  | cons a t ih =>
    cases i with
    | zero => simp [mapWithIndex]
    | succ n =>
      have := @ih (k + 1) n (by simpa using h)
      simp only [mapWithIndex, List.getD_cons_succ]
      rw [this]
      congr 1
      omega

lemma mem_mapWithIndex {f : Nat → ConnectedRoad → ConnectedRoad}
    {k : Nat} {l : List ConnectedRoad} {a : ConnectedRoad}
    (h : a ∈ mapWithIndex f k l) : ∃ i x, x ∈ l ∧ a = f i x := by
  induction l generalizing k with
  | nil => simp [mapWithIndex] at h
  | cons b t ih =>
    rcases List.mem_cons.mp h with rfl | hmem
    · exact ⟨k, b, List.mem_cons_self _ _, rfl⟩
    · obtain ⟨i, x, hx, hfx⟩ := ih hmem
      exact ⟨i, x, List.mem_cons_of_mem _ hx, hfx⟩

end ListLemmas

section AngleLemmas

lemma angularDeviation_nonneg {a b : ℚ} (ha : 0 ≤ a) (ha' : a ≤ 360)
    (hb : 0 ≤ b) (hb' : b ≤ 360) : 0 ≤ angularDeviation a b := by
  have h1 : |a - b| ≤ 360 := abs_le.mpr ⟨by linarith, by linarith⟩
  have h2 : (0 : ℚ) ≤ |a - b| := abs_nonneg _
  exact le_min (by linarith) h2

lemma angularDeviation_le_180 {a b : ℚ} (ha : 0 ≤ a) (ha' : a ≤ 360)
    (hb : 0 ≤ b) (hb' : b ≤ 360) : angularDeviation a b ≤ 180 := by
  rcases le_total (|a - b|) 180 with h | h
  · exact le_trans (min_le_right _ _) h
  · exact le_trans (min_le_left _ _) (by linarith)

lemma combineAngles_bounds {a b : ℚ} (ha : 0 ≤ a) (ha' : a ≤ 360)
    (hb : 0 ≤ b) (hb' : b ≤ 360) :
    0 ≤ combineAngles a b ∧ combineAngles a b ≤ 360 := by
  simp only [combineAngles, aroundZero, angularDeviation]
  rcases abs_cases (a - b) with ⟨he, hsign⟩ | ⟨he, hsign⟩ <;>
    rcases max_cases a b with ⟨hm, hmr⟩ | ⟨hm, hmr⟩ <;>
    rcases min_cases a b with ⟨hn, hnr⟩ | ⟨hn, hnr⟩ <;>
    rcases min_cases (360 - |a - b|) (|a - b|) with ⟨hq, hqr⟩ | ⟨hq, hqr⟩ <;>
    constructor <;> split_ifs <;> linarith

lemma combineAngles_pos {a b : ℚ} (ha : 0 < a) (ha' : a ≤ 360)
    (hb : 0 < b) (hb' : b ≤ 360) : 0 < combineAngles a b := by
  simp only [combineAngles, aroundZero, angularDeviation]
  rcases abs_cases (a - b) with ⟨he, hsign⟩ | ⟨he, hsign⟩ <;>
    rcases max_cases a b with ⟨hm, hmr⟩ | ⟨hm, hmr⟩ <;>
    rcases min_cases a b with ⟨hn, hnr⟩ | ⟨hn, hnr⟩ <;>
    rcases min_cases (360 - |a - b|) (|a - b|) with ⟨hq, hqr⟩ | ⟨hq, hqr⟩ <;>
    split_ifs <;> linarith

lemma adjustAngle_bounds {angle offset : ℚ} (h0 : 0 ≤ angle) (h1 : angle ≤ 360)
    (h2 : -360 ≤ offset) (h3 : offset ≤ 360) :
    0 ≤ adjustAngle angle offset ∧ adjustAngle angle offset ≤ 360 := by
  simp only [adjustAngle]
  split_ifs <;> constructor <;> linarith

/-- Bounds for the merged road: both inputs in range give a result in
range. -/
lemma merge_bounds {f s : ConnectedRoad}
    (hf : 0 ≤ f.angle ∧ f.angle ≤ 360 ∧ 0 ≤ f.bearing ∧ f.bearing ≤ 360)
    (hs : 0 ≤ s.angle ∧ s.angle ≤ 360 ∧ 0 ≤ s.bearing ∧ s.bearing ≤ 360) :
    0 ≤ (merge f s).angle ∧ (merge f s).angle ≤ 360 ∧
    0 ≤ (merge f s).bearing ∧ (merge f s).bearing ≤ 360 := by
  obtain ⟨h1, h2, h3, h4⟩ := hf
  obtain ⟨h5, h6, h7, h8⟩ := hs
  have hangle := combineAngles_bounds h1 h2 h5 h6
  have hbearing := combineAngles_bounds h3 h4 h7 h8
  simp only [merge]
  exact ⟨hangle.1, hangle.2, hbearing.1, hbearing.2⟩

end AngleLemmas

section FirstMergeStep

/-- A successful CanMerge implies the intersection has degree at least
three (the degree check of the source vetoes the rest). -/
lemma canMerge_length {env : Env} {node : Nat} {l : List ConnectedRoad}
    {i j : Nat} (h : CanMerge env node l i j = true) : 3 ≤ l.length := by
  by_contra hcon
  have hle : l.length ≤ 2 := by omega
  simp [CanMerge, canMergeImpl, hle] at h

/-- Characterization of the first back-bearing merge branch: when entries 0
and last can merge, the step reports a merge, drops one entry, replaces
entry 0 by the merge of the original entries 0 and last with angle forced to
0, and shifts every interior angle up by half of `360 - angle[last]`.  The
result is fully determined, so the second branch (`CanMerge 0 1`) is not
applied in addition. -/
lemma firstMergeStep_branch1 {env : Env} {node : Nat} {l : List ConnectedRoad}
    (h : CanMerge env node l 0 (l.length - 1) = true) :
    (firstMergeStep env node l).1 = true ∧
    (firstMergeStep env node l).2.length = l.length - 1 ∧
    (firstMergeStep env node l).2.getD 0 default =
      { merge (l.getD 0 default) (l.getD (l.length - 1) default) with angle := 0 } ∧
    ∀ i, 1 ≤ i → i + 1 < l.length →
      (firstMergeStep env node l).2.getD i default =
        { l.getD i default with
          angle := (l.getD i default).angle +
            (360 - (l.getD (l.length - 1) default).angle) / 2 } := by
  have hlen : 3 ≤ l.length := canMerge_length h
  simp only [firstMergeStep, h, if_true]
  set f : Nat → ConnectedRoad → ConnectedRoad :=
    fun i r => if 1 ≤ i ∧ i + 1 < l.length
               then { r with angle := r.angle +
                 (360 - (l.getD (l.length - 1) default).angle) / 2 } else r with hf
  have hml : (mapWithIndex f 0 l).length = l.length := length_mapWithIndex f 0 l
  have hget0 : (mapWithIndex f 0 l).getD 0 default = l.getD 0 default := by
    rw [getD_mapWithIndex f default (by omega)]
    simp [hf]
  have hgetlast : (mapWithIndex f 0 l).getD (l.length - 1) default =
      l.getD (l.length - 1) default := by
    rw [getD_mapWithIndex f default (by omega)]
    simp only [hf, Nat.zero_add]
    rw [if_neg (by omega)]
  refine ⟨trivial, ?_, ?_, ?_⟩
  · simp [List.length_dropLast, List.length_set, hml]
  · rw [getD_dropLast default (by simp [List.length_set, hml]; omega)]
    rw [getD_set_eq default (by simp [hml]; omega)]
    rw [hml, hget0, hgetlast]
  · intro i h1 h2
    rw [getD_dropLast default (by simp [List.length_set, hml]; omega)]
    rw [getD_set_ne default (by omega)]
    rw [getD_mapWithIndex f default (by omega)]
    simp only [hf, Nat.zero_add]
    rw [if_pos ⟨h1, h2⟩]

/-- Characterization of the second back-bearing merge branch: when entries 0
and last cannot merge but entries 0 and 1 can, the step reports a merge,
drops one entry, replaces entry 0 by the merge of the original entries 0 and
1 with angle forced to 0, and every later candidate (original index at least
2, landing at index one less) has its angle shifted down by half of
`angle[1]`. -/
lemma firstMergeStep_branch2 {env : Env} {node : Nat} {l : List ConnectedRoad}
    (hnot : CanMerge env node l 0 (l.length - 1) = false)
    (h : CanMerge env node l 0 1 = true) :
    (firstMergeStep env node l).1 = true ∧
    (firstMergeStep env node l).2.length = l.length - 1 ∧
    (firstMergeStep env node l).2.getD 0 default =
      { merge (l.getD 0 default) (l.getD 1 default) with angle := 0 } ∧
    ∀ i, 1 ≤ i → i < l.length - 1 →
      (firstMergeStep env node l).2.getD i default =
        { l.getD (i + 1) default with
          angle := (l.getD (i + 1) default).angle -
            (l.getD 1 default).angle / 2 } := by
  have hlen : 3 ≤ l.length := canMerge_length h
  simp only [firstMergeStep, hnot, h, if_true, Bool.false_eq_true, if_false]
  set f : Nat → ConnectedRoad → ConnectedRoad :=
    fun i r => if 2 ≤ i
               then { r with angle := r.angle - (l.getD 1 default).angle / 2 }
               else r with hf
  have hml : (mapWithIndex f 0 l).length = l.length := length_mapWithIndex f 0 l
  have hget0 : (mapWithIndex f 0 l).getD 0 default = l.getD 0 default := by
    rw [getD_mapWithIndex f default (by omega)]
    simp [hf]
  have hget1 : (mapWithIndex f 0 l).getD 1 default = l.getD 1 default := by
    rw [getD_mapWithIndex f default (by omega)]
    simp [hf]
  refine ⟨trivial, ?_, ?_, ?_⟩
  · rw [List.length_eraseIdx]
    simp [List.length_set, hml]
    omega
  · rw [getD_eraseIdx_lt default (by omega)]
    rw [getD_set_eq default (by simp [hml]; omega)]
    rw [hget0, hget1]
  · intro i h1 h2
    rw [getD_eraseIdx_ge default h1]
    rw [getD_set_ne default (by omega)]
    rw [getD_mapWithIndex f default (by omega)]
    simp only [hf, Nat.zero_add]
    rw [if_pos (by omega)]

/-- When neither back-bearing branch applies the step is the identity. -/
lemma firstMergeStep_none {env : Env} {node : Nat} {l : List ConnectedRoad}
    (h1 : CanMerge env node l 0 (l.length - 1) = false)
    (h2 : CanMerge env node l 0 1 = false) :
    firstMergeStep env node l = (false, l) := by
  simp [firstMergeStep, h1, h2]

end FirstMergeStep

section PassInvariants

lemma default_road_angle : (default : ConnectedRoad).angle = 0 := rfl

lemma default_road_bearing : (default : ConnectedRoad).bearing = 0 := rfl

lemma getD_eq_getElem {α : Type} {l : List α} {n : Nat} (d : α)
    (h : n < l.length) : l.getD n d = l[n] := by
  rw [List.getD_eq_getElem?_getD, List.getElem?_eq_getElem h]
  rfl

lemma inRange_getD {l : List ConnectedRoad} {i : Nat} (h : InRange l)
    (hi : i < l.length) :
    0 ≤ (l.getD i default).angle ∧ (l.getD i default).angle ≤ 360 ∧
    0 ≤ (l.getD i default).bearing ∧ (l.getD i default).bearing ≤ 360 :=
  h _ (getD_mem default hi)

/-- The general merge pass preserves the closed angle and bearing range. -/
lemma generalPass_inRange (env : Env) (node : Nat) :
    ∀ fuel idx (l : List ConnectedRoad), InRange l →
      InRange (generalPass env node fuel idx l) := by
  intro fuel
  induction fuel with
  | zero => intro idx l h; simpa [generalPass] using h
  | succ n ih =>
    intro idx l h
    simp only [generalPass]
    split
    · split
      · apply ih
        intro r hr
        rcases mem_of_mem_set (mem_of_mem_eraseIdx hr) with hmem | rfl
        · exact h r hmem
        · have hlen : 0 < l.length := by omega
          have hlt : (idx + l.length - 1) % l.length < l.length := Nat.mod_lt _ hlen
          have h1 := inRange_getD h hlt
          have h2 := inRange_getD h (show idx < l.length by omega)
          exact merge_bounds ⟨h1.1, h1.2.1, h1.2.2.1, h1.2.2.2⟩
            ⟨h2.1, h2.2.1, h2.2.2.1, h2.2.2.2⟩
      · exact ih _ _ h
    · exact h

/-- The general merge pass, entered at index 2 or later over a list whose
tail angles are positive, keeps the range invariant and tail positivity, and
neither moves nor modifies entry 0; it also keeps the list nonempty. -/
lemma generalPass_keepsHead (env : Env) (node : Nat) :
    ∀ fuel idx (l : List ConnectedRoad), 2 ≤ idx → InRange l → PosTail l →
      InRange (generalPass env node fuel idx l) ∧
      PosTail (generalPass env node fuel idx l) ∧
      (generalPass env node fuel idx l).getD 0 default = l.getD 0 default ∧
      (0 < l.length → 0 < (generalPass env node fuel idx l).length) := by
  intro fuel
  induction fuel with
  | zero =>
    intro idx l _ hr hp
    exact ⟨by simpa [generalPass] using hr, by simpa [generalPass] using hp,
      by simp [generalPass], by simp [generalPass]⟩
  | succ n ih =>
    intro idx l hidx hr hp
    simp only [generalPass]
    split
    · rename_i hlt
      split
      · rename_i hcm
        have hlen : 0 < l.length := by omega
        have hright : (idx + l.length - 1) % l.length = idx - 1 := by
          rw [show idx + l.length - 1 = (idx - 1) + l.length from by omega,
            Nat.add_mod_right]
          exact Nat.mod_eq_of_lt (by omega)
        set m := merge (l.getD ((idx + l.length - 1) % l.length) default)
          (l.getD idx default) with hm
        set l2 := (l.set ((idx + l.length - 1) % l.length) m).eraseIdx idx with hl2
        have hrlt : (idx + l.length - 1) % l.length < l.length := by omega
        have hmbounds : 0 ≤ m.angle ∧ m.angle ≤ 360 ∧ 0 ≤ m.bearing ∧ m.bearing ≤ 360 := by
          have h1 := inRange_getD hr hrlt
          have h2 := inRange_getD hr (show idx < l.length by omega)
          exact merge_bounds ⟨h1.1, h1.2.1, h1.2.2.1, h1.2.2.2⟩
            ⟨h2.1, h2.2.1, h2.2.2.1, h2.2.2.2⟩
        have hmpos : 0 < m.angle := by
          have h1 := inRange_getD hr hrlt
          have h2 := inRange_getD hr (show idx < l.length by omega)
          have hp1 : 0 < (l.getD ((idx + l.length - 1) % l.length) default).angle := by
            apply hp _ hrlt
            omega
          have hp2 : 0 < (l.getD idx default).angle := hp _ (by omega) (by omega)
          exact combineAngles_pos hp1 h1.2.1 hp2 h2.2.1
        have hl2len : l2.length = l.length - 1 := by
          rw [hl2, List.length_eraseIdx]
          simp [List.length_set]
          omega
        have hl2range : InRange l2 := by
          intro r hrm
          rcases mem_of_mem_set (mem_of_mem_eraseIdx hrm) with hmem | rfl
          · exact hr r hmem
          · exact hmbounds
        have hl2pos : PosTail l2 := by
          intro i hi h1i
          rcases Nat.lt_or_ge i idx with hc | hc
          · rw [hl2, getD_eraseIdx_lt default hc]
            by_cases he : (idx + l.length - 1) % l.length = i
            · rw [← he] at h1i ⊢
              rw [getD_set_eq default hrlt]
              exact hmpos
            · rw [getD_set_ne default he]
              exact hp _ (by omega) h1i
          · rw [hl2, getD_eraseIdx_ge default hc]
            have hne : (idx + l.length - 1) % l.length ≠ i + 1 := by omega
            rw [getD_set_ne default hne]
            have hi1 : i + 1 < l.length := by omega
            exact hp _ hi1 (by omega)
        have hl2head : l2.getD 0 default = l.getD 0 default := by
          rw [hl2, getD_eraseIdx_lt default (by omega)]
          exact getD_set_ne default (by omega)
        obtain ⟨hA, hB, hC, hD⟩ := ih idx l2 hidx hl2range hl2pos
        refine ⟨hA, hB, ?_, ?_⟩
        · rw [hC, hl2head]
        · intro _
          apply hD
          omega
      · exact ih (idx + 1) l (by omega) hr hp
    · exact ⟨hr, hp, rfl, fun h => h⟩

/-- Insertion sort keeps the range invariant (it permutes the list). -/
lemma insertionSort_inRange {l : List ConnectedRoad} (h : InRange l) :
    InRange (List.insertionSort byAngle l) := by
  intro r hr
  exact h r ((List.perm_insertionSort byAngle l).mem_iff.mp hr)

/-- Sorting a list whose entry 0 has angle 0 and whose other entries have
strictly positive angles puts that same entry first. -/
lemma insertionSort_head_of_unique_min {l : List ConnectedRoad}
    (hlen : 0 < l.length) (hp : PosTail l)
    (hz : (l.getD 0 default).angle = 0) :
    (List.insertionSort byAngle l).getD 0 default = l.getD 0 default := by
  set out := List.insertionSort byAngle l with hout
  have hperm : out.Perm l := List.perm_insertionSort byAngle l
  have hsorted : List.Sorted byAngle out := List.sorted_insertionSort byAngle l
  have hlenout : out.length = l.length := hperm.length_eq
  have hmem0 : out.getD 0 default ∈ l :=
    hperm.mem_iff.mp (getD_mem default (by omega))
  obtain ⟨j, hj, hgj⟩ := mem_getD default hmem0
  have hl0 : l.getD 0 default ∈ out := hperm.mem_iff.mpr (getD_mem default hlen)
  obtain ⟨k, hk, hgk⟩ := mem_getD default hl0
  have hle : (out.getD 0 default).angle ≤ (out.getD k default).angle := by
    rcases Nat.eq_zero_or_pos k with rfl | hkpos
    · exact le_refl _
    · have := (List.pairwise_iff_getElem.mp hsorted) 0 k (by omega) hk hkpos
      rw [getD_eq_getElem default (by omega), getD_eq_getElem default hk]
      exact this
  rw [hgk, hz] at hle
  have hj0 : j = 0 := by
    by_contra hne
    have hjpos : 1 ≤ j := by omega
    have := hp j hj hjpos
    rw [hgj] at this
    linarith
  rw [← hgj, hj0]

end PassInvariants

section MergeInvariants

/-- The back-bearing step preserves the closed range `[0, 360]`, assuming
the input is ordered by angle (interior angles are shifted toward the moved
back-bearing and stay inside the range precisely because each is bounded by
the outermost angle). -/
lemma firstMergeStep_inRange {env : Env} {node : Nat} {l : List ConnectedRoad}
    (hs : SortedByAngle l) (hr : InRange l) :
    InRange (firstMergeStep env node l).2 := by
  by_cases h1 : CanMerge env node l 0 (l.length - 1) = true
  · obtain ⟨-, hlen2, hget0, hgetI⟩ := firstMergeStep_branch1 h1
    have hlen : 3 ≤ l.length := canMerge_length h1
    intro r hrm
    obtain ⟨i, hi, hgi⟩ := mem_getD default hrm
    rw [hlen2] at hi
    have hb0 := inRange_getD hr (show 0 < l.length by omega)
    have hblast := inRange_getD hr (show l.length - 1 < l.length by omega)
    rcases Nat.eq_zero_or_pos i with rfl | hipos
    · have hre : r = { merge (l.getD 0 default) (l.getD (l.length - 1) default) with
          angle := 0 } := by rw [← hgi, hget0]
      have hmb := merge_bounds ⟨hb0.1, hb0.2.1, hb0.2.2.1, hb0.2.2.2⟩
        ⟨hblast.1, hblast.2.1, hblast.2.2.1, hblast.2.2.2⟩
      rw [hre]
      refine ⟨by norm_num, by norm_num, ?_, ?_⟩
      · simpa using hmb.2.2.1
      · simpa using hmb.2.2.2
    · have hi1 : i + 1 < l.length := by omega
      have hre : r = { l.getD i default with
          angle := (l.getD i default).angle +
            (360 - (l.getD (l.length - 1) default).angle) / 2 } := by
        rw [← hgi, hgetI i hipos hi1]
      have hbi := inRange_getD hr (show i < l.length by omega)
      have hord : (l.getD i default).angle ≤ (l.getD (l.length - 1) default).angle :=
        hs (l.length - 1) (by omega) i (by omega)
      rw [hre]
      refine ⟨?_, ?_, by simpa using hbi.2.2.1, by simpa using hbi.2.2.2⟩
      · simp only []
        linarith [hbi.1, hblast.2.1]
      · simp only []
        linarith [hbi.2.1, hblast.2.1, hblast.1, hord]
  · have h1' : CanMerge env node l 0 (l.length - 1) = false := by simpa using h1
    by_cases h2 : CanMerge env node l 0 1 = true
    · obtain ⟨-, hlen2, hget0, hgetI⟩ := firstMergeStep_branch2 h1' h2
      have hlen : 3 ≤ l.length := canMerge_length h2
      intro r hrm
      obtain ⟨i, hi, hgi⟩ := mem_getD default hrm
      rw [hlen2] at hi
      have hb0 := inRange_getD hr (show 0 < l.length by omega)
      have hb1 := inRange_getD hr (show 1 < l.length by omega)
      rcases Nat.eq_zero_or_pos i with rfl | hipos
      · have hre : r = { merge (l.getD 0 default) (l.getD 1 default) with
            angle := 0 } := by rw [← hgi, hget0]
        have hmb := merge_bounds ⟨hb0.1, hb0.2.1, hb0.2.2.1, hb0.2.2.2⟩
          ⟨hb1.1, hb1.2.1, hb1.2.2.1, hb1.2.2.2⟩
        rw [hre]
        refine ⟨by norm_num, by norm_num, ?_, ?_⟩
        · simpa using hmb.2.2.1
        · simpa using hmb.2.2.2
      · have hre : r = { l.getD (i + 1) default with
            angle := (l.getD (i + 1) default).angle -
              (l.getD 1 default).angle / 2 } := by
          rw [← hgi, hgetI i hipos hi]
        have hbi := inRange_getD hr (show i + 1 < l.length by omega)
        have hord : (l.getD 1 default).angle ≤ (l.getD (i + 1) default).angle :=
          hs (i + 1) (by omega) 1 (by omega)
        rw [hre]
        refine ⟨?_, ?_, by simpa using hbi.2.2.1, by simpa using hbi.2.2.2⟩
        · simp only []
          linarith [hb1.1, hb1.2.1]
        · simp only []
          linarith [hbi.2.1, hb1.1]
    · have h2' : CanMerge env node l 0 1 = false := by simpa using h2
      rw [firstMergeStep_none h1' h2']
      simpa using hr

/-- When one of the two back-bearing merges fires, the step reports it, the
resulting entry 0 has angle exactly 0, the remaining tail keeps strictly
positive angles, and at least two candidates remain. -/
lemma firstMergeStep_merged {env : Env} {node : Nat} {l : List ConnectedRoad}
    (hs : SortedByAngle l) (hr : InRange l) (hp : PosTail l)
    (hm : CanMerge env node l 0 (l.length - 1) = true ∨
          CanMerge env node l 0 1 = true) :
    (firstMergeStep env node l).1 = true ∧
    ((firstMergeStep env node l).2.getD 0 default).angle = 0 ∧
    PosTail (firstMergeStep env node l).2 ∧
    2 ≤ (firstMergeStep env node l).2.length := by
  by_cases h1 : CanMerge env node l 0 (l.length - 1) = true
  · obtain ⟨hfst, hlen2, hget0, hgetI⟩ := firstMergeStep_branch1 h1
    have hlen : 3 ≤ l.length := canMerge_length h1
    have hblast := inRange_getD hr (show l.length - 1 < l.length by omega)
    refine ⟨hfst, by rw [hget0], ?_, by omega⟩
    intro i hi h1i
    rw [hlen2] at hi
    rw [hgetI i h1i (by omega)]
    have hpi : 0 < (l.getD i default).angle := hp i (by omega) h1i
    simp only []
    linarith [hblast.2.1]
  · have h1' : CanMerge env node l 0 (l.length - 1) = false := by simpa using h1
    have h2 : CanMerge env node l 0 1 = true := by
      rcases hm with hma | hmb
      · exact absurd hma h1
      · exact hmb
    obtain ⟨hfst, hlen2, hget0, hgetI⟩ := firstMergeStep_branch2 h1' h2
    have hlen : 3 ≤ l.length := canMerge_length h2
    have hp1 : 0 < (l.getD 1 default).angle := hp 1 (by omega) (by omega)
    refine ⟨hfst, by rw [hget0], ?_, by omega⟩
    intro i hi h1i
    rw [hlen2] at hi
    rw [hgetI i h1i hi]
    have hord : (l.getD 1 default).angle ≤ (l.getD (i + 1) default).angle :=
      hs (i + 1) (by omega) 1 (by omega)
    simp only []
    linarith

/-- MergeSegregatedRoads keeps every angle and bearing inside `[0, 360]`
when the input is ordered by angle with all values inside `[0, 360]`. -/
lemma mergeSegregated_inRange {env : Env} {node : Nat} {l : List ConnectedRoad}
    (hs : SortedByAngle l) (hr : InRange l) :
    InRange (MergeSegregatedRoads env node l) := by
  unfold MergeSegregatedRoads
  split
  · exact hr
  · apply insertionSort_inRange
    apply generalPass_inRange
    have hfr : InRange (firstMergeStep env node l).2 := firstMergeStep_inRange hs hr
    split
    · intro r hrm
      rcases mem_of_mem_set hrm with hmem | rfl
      · exact hfr r hmem
      · by_cases hne : 0 < (firstMergeStep env node l).2.length
        · have := inRange_getD hfr hne
          exact ⟨by simpa using this.1, by simpa using this.2.1,
            by simpa using this.2.2.1, by simpa using this.2.2.2⟩
        · rw [List.getD_eq_default _ _ (by omega)]
          norm_num [default_road_angle, default_road_bearing]
    · exact hfr

/-- The output of MergeSegregatedRoads is ordered by angle (non-strictly). -/
lemma mergeSegregated_sorted (env : Env) (node : Nat) (l : List ConnectedRoad) :
    List.Sorted byAngle (MergeSegregatedRoads env node l) := by
  unfold MergeSegregatedRoads
  split
  · rename_i hlen
    match l, hlen with
    | [], _ => exact List.sorted_nil
    | [a], _ => exact List.sorted_singleton a
  · exact List.sorted_insertionSort byAngle _

end MergeInvariants

section AdjustInvariants

/-- Total bounds for a getD access on an in-range list (the default road has
angle and bearing 0, also in range). -/
lemma getD_angle_bounds {l : List ConnectedRoad} (h : InRange l) (i : Nat) :
    0 ≤ (l.getD i default).angle ∧ (l.getD i default).angle ≤ 360 ∧
    0 ≤ (l.getD i default).bearing ∧ (l.getD i default).bearing ≤ 360 := by
  by_cases hi : i < l.length
  · exact inRange_getD h hi
  · rw [List.getD_eq_default _ _ (by omega)]
    norm_num [default_road_angle, default_road_bearing]

lemma get_offset_bounds {lhs rhs : ConnectedRoad}
    (h1 : 0 ≤ lhs.angle) (h2 : lhs.angle ≤ 360)
    (h3 : 0 ≤ rhs.angle) (h4 : rhs.angle ≤ 360) :
    0 ≤ get_offset lhs rhs ∧ get_offset lhs rhs ≤ 90 := by
  have ha := angularDeviation_nonneg h1 h2 h3 h4
  have hb := angularDeviation_le_180 h1 h2 h3 h4
  unfold get_offset
  constructor <;> linarith

lemma corrected_offset_range {margin offset : ℚ} {road nextr : ConnectedRoad}
    (ho : 0 ≤ offset) (ho' : offset ≤ 90)
    (hr : 0 ≤ road.angle) (hr' : road.angle ≤ 360)
    (hn : 0 ≤ nextr.angle) (hn' : nextr.angle ≤ 360) :
    0 ≤ get_corrected_offset margin offset road nextr ∧
    get_corrected_offset margin offset road nextr ≤ 90 := by
  have ha := angularDeviation_nonneg hr hr' hn hn'
  have hb := angularDeviation_le_180 hr hr' hn hn'
  unfold get_corrected_offset
  dsimp only
  split_ifs <;> constructor <;> linarith

/-- Setting a candidate to its adjusted copy keeps the range invariant as
long as the applied offset is less than a full turn in absolute value. -/
lemma set_adjusted_inRange {l : List ConnectedRoad} {index : Nat} {co : ℚ}
    (h : InRange l) (hco1 : -360 ≤ co) (hco2 : co ≤ 360) :
    InRange (l.set index
      { l.getD index default with
        angle := adjustAngle (l.getD index default).angle co,
        bearing := adjustAngle (l.getD index default).bearing co }) := by
  intro r hrm
  rcases mem_of_mem_set hrm with hmem | rfl
  · exact h r hmem
  · have hb := getD_angle_bounds h index
    have ha := adjustAngle_bounds hb.1 hb.2.1 hco1 hco2
    have hbb := adjustAngle_bounds hb.2.2.1 hb.2.2.2 hco1 hco2
    exact ⟨by simpa using ha.1, by simpa using ha.2,
      by simpa using hbb.1, by simpa using hbb.2⟩

/-- One adjustment step keeps every angle and bearing inside `[0, 360]`,
given the generator contract. -/
lemma adjustOne_inRange {env : Env} {margin : ℚ} {node index : Nat}
    {l : List ConnectedRoad} (hg : GenRange env) (h : InRange l) :
    InRange (adjustOne env margin node l index) := by
  unfold adjustOne
  dsimp only
  split
  · exact h
  · split
    · exact h
    · split
      · exact h
      · have hglen : ¬ (env.intersectionGenerator node
            (l.getD index default).eid).length ≤ 1 := by assumption
        have hgen : ∀ i, i < (env.intersectionGenerator node
            (l.getD index default).eid).length →
            0 ≤ ((env.intersectionGenerator node
              (l.getD index default).eid).getD i default).angle ∧
            ((env.intersectionGenerator node
              (l.getD index default).eid).getD i default).angle ≤ 360 := by
          intro i hi
          exact hg node (l.getD index default).eid _ (getD_mem default hi)
        split
        · have hb0 := hgen 0 (by omega)
          have hb1 := hgen 1 (by omega)
          have hoff := get_offset_bounds hb0.1 hb0.2 hb1.1 hb1.2
          have hroad := getD_angle_bounds h index
          have hnext := getD_angle_bounds h ((index + 1) % l.length)
          have hco := @corrected_offset_range margin _ _ _ hoff.1 hoff.2
            hroad.1 hroad.2.1 hnext.1 hnext.2.1
          exact set_adjusted_inRange h (by linarith [hco.1]) (by linarith [hco.2])
        · split
          · have hb0 := hgen 0 (by omega)
            have hbl := hgen ((env.intersectionGenerator node
              (l.getD index default).eid).length - 1) (by omega)
            have hoff := get_offset_bounds hb0.1 hb0.2 hbl.1 hbl.2
            have hroad := getD_angle_bounds h index
            have hprev := getD_angle_bounds h (index - 1)
            have hco := @corrected_offset_range margin _ _ _ hoff.1 hoff.2
              hroad.1 hroad.2.1 hprev.1 hprev.2.1
            exact set_adjusted_inRange h (by linarith [hco.2]) (by linarith [hco.1])
          · exact h

/-- The adjustment loop keeps the range invariant. -/
lemma adjustLoop_inRange (env : Env) (margin : ℚ) (node : Nat) :
    ∀ fuel idx (l : List ConnectedRoad), GenRange env → InRange l →
      InRange (adjustLoop env margin node fuel idx l) := by
  intro fuel
  induction fuel with
  | zero => intro idx l _ h; simpa [adjustLoop] using h
  | succ n ih =>
    intro idx l hg h
    simp only [adjustLoop]
    split
    · exact ih _ _ hg (adjustOne_inRange hg h)
    · exact h

/-- AdjustForJoiningRoads keeps every angle and bearing inside `[0, 360]`,
given the generator contract. -/
lemma adjust_inRange {env : Env} {margin : ℚ} {node : Nat}
    {l : List ConnectedRoad} (hg : GenRange env) (h : InRange l) :
    InRange (AdjustForJoiningRoads env margin node l) := by
  unfold AdjustForJoiningRoads
  split
  · exact h
  · exact adjustLoop_inRange env margin node _ _ _ hg h

end AdjustInvariants

section WitnessData

/-- A permissive concrete environment: every edge is named 1 and is not a
roundabout, names never require announcement, the geometric detector always
accepts, the generator returns nothing, distances are 0. -/
def baseEnv : Env :=
  { getEdgeData := fun _ => ⟨1, false⟩
    getTarget := fun _ => 0
    adjacentEdgeCount := fun _ => 0
    nodeCoordinates := fun _ => ⟨0, 0⟩
    haversineDistance := fun _ _ => 0
    requiresNameAnnounced := fun _ _ => false
    canMergeRoad := fun _ _ _ => true
    intersectionGenerator := fun _ _ => [] }

/-- Like `baseEnv` but every edge is unnamed. -/
def envUnnamed : Env := { baseEnv with getEdgeData := fun _ => ⟨0, false⟩ }

/-- Like `baseEnv` but every edge carries the roundabout flag. -/
def envRoundabout : Env := { baseEnv with getEdgeData := fun _ => ⟨1, true⟩ }

/-- Like `baseEnv` but the geometric detector only accepts the pair of edges
1 and 2. -/
def envPairDetector : Env :=
  { baseEnv with canMergeRoad := fun _ a b =>
      (a.eid == 1 && b.eid == 2) || (a.eid == 2 && b.eid == 1) }

/-- A sorted in-range intersection whose outer pair of candidates straddles
the 0/360 boundary. -/
def listWrap : List ConnectedRoad :=
  [⟨0, 0, 0, true⟩, ⟨1, 10, 10, true⟩, ⟨2, 350, 350, true⟩]

/-- A sorted in-range intersection with a duplicated angle. -/
def listDup : List ConnectedRoad :=
  [⟨0, 0, 0, true⟩, ⟨1, 90, 90, true⟩, ⟨2, 90, 91, true⟩]

end WitnessData

section Claims

/-- C2: for angles in `[0, 360)`, combineAngles is the plain mean when the
numeric difference is below 180, and otherwise `max + angularDeviation / 2`
reduced by 360 exactly when that sum exceeds 360; in particular
`combineAngles 350 10` is 360 (circularly at distance 0 from 0), not 180. -/
theorem combineAngles_spec (a b : ℚ) (ha : 0 ≤ a) (ha' : a < 360)
    (hb : 0 ≤ b) (hb' : b < 360) :
    (|a - b| < 180 → combineAngles a b = (1/2) * (a + b)) ∧
    (180 ≤ |a - b| → combineAngles a b =
      (if max a b + (1/2) * angularDeviation a b > 360
       then max a b + (1/2) * angularDeviation a b - 360
       else max a b + (1/2) * angularDeviation a b)) ∧
    combineAngles 350 10 = 360 ∧
    combineAngles 350 10 ≠ 180 ∧
    angularDeviation (combineAngles 350 10) 0 = 0 := by
  have hms : max a b - min a b = |a - b| := by
    rw [max_sub_min_eq_abs, abs_sub_comm]
  refine ⟨?_, ?_, ?_, ?_, ?_⟩
  · intro h
    unfold combineAngles
    rw [if_neg]
    intro hge
    unfold aroundZero at hge
    rw [hms] at hge
    linarith
  · intro h
    unfold combineAngles
    rw [if_pos]
    unfold aroundZero
    rw [hms]
    linarith
  · norm_num [combineAngles, aroundZero, angularDeviation]
  · norm_num [combineAngles, aroundZero, angularDeviation]
  · norm_num [combineAngles, aroundZero, angularDeviation]

/-- Witness for C2 at the concrete wraparound pair (350, 10). -/
theorem combineAngles_spec_witness :
    (0 : ℚ) ≤ 350 ∧ (350 : ℚ) < 360 ∧ (0 : ℚ) ≤ 10 ∧ (10 : ℚ) < 360 ∧
    combineAngles 350 10 = 360 := by
  refine ⟨by norm_num, by norm_num, by norm_num, by norm_num, ?_⟩
  exact (combineAngles_spec 350 10 (by norm_num) (by norm_num) (by norm_num)
    (by norm_num)).2.2.1

/-- C4: the merged road takes angle and bearing from combineAngles, keeps
the legally enterable input (the first when its entry is allowed, the second
otherwise), and merging candidates at 170 and 190 degrees yields 180. -/
theorem merge_semantics (f s : ConnectedRoad) :
    (merge f s).angle = combineAngles f.angle s.angle ∧
    (merge f s).bearing = combineAngles f.bearing s.bearing ∧
    (f.entry_allowed = true →
      (merge f s).eid = f.eid ∧ (merge f s).entry_allowed = f.entry_allowed) ∧
    (f.entry_allowed = false → s.entry_allowed = true →
      (merge f s).eid = s.eid ∧ (merge f s).entry_allowed = true) ∧
    merge ⟨1, 170, 170, true⟩ ⟨2, 190, 190, false⟩ = ⟨1, 180, 180, true⟩ := by
  refine ⟨rfl, rfl, ?_, ?_, ?_⟩
  · intro h
    simp [merge, h]
  · intro h1 h2
    simp [merge, h1, h2]
  · norm_num [merge, combineAngles, aroundZero, angularDeviation]

/-- Witness for C4: with the first entry disallowed and the second allowed,
the merged road carries the second edge. -/
theorem merge_semantics_witness :
    (merge ⟨5, 10, 20, false⟩ ⟨7, 30, 40, true⟩).eid = 7 ∧
    (merge ⟨5, 10, 20, false⟩ ⟨7, 30, 40, true⟩).entry_allowed = true :=
  (merge_semantics ⟨5, 10, 20, false⟩ ⟨7, 30, 40, true⟩).2.2.2.1 rfl rfl

/-- C5: on an intersection of degree at least three, an empty street name on
either candidate edge makes CanMerge false, whatever the geometric detector
answers (the environment, including the detector, is arbitrary here). -/
theorem canMerge_name_veto (env : Env) (node : Nat) (l : List ConnectedRoad)
    (i j : Nat) (hdeg : 3 ≤ l.length)
    (hname : (env.getEdgeData (l.getD i default).eid).name_id = EMPTY_NAMEID ∨
             (env.getEdgeData (l.getD j default).eid).name_id = EMPTY_NAMEID) :
    CanMerge env node l i j = false := by
  unfold CanMerge canMergeImpl
  dsimp only
  rw [if_neg (by omega), if_pos hname]

/-- Witness for C5: the veto fires on unnamed edges although the detector of
the environment answers true for every pair. -/
theorem canMerge_name_veto_witness :
    CanMerge envUnnamed 0 [⟨0, 0, 0, true⟩, ⟨1, 10, 10, true⟩, ⟨2, 20, 20, true⟩]
      0 2 = false :=
  canMerge_name_veto envUnnamed 0 _ 0 2 (by norm_num) (Or.inl rfl)

/-- C10: the element reads of CanMerge come before the degree check, so an
access-checked CanMerge succeeds exactly when both indices are in range
(also on degree-two inputs whose result would trivially be false), and under
that precondition it agrees with CanMerge. -/
theorem canMerge_access_safety (env : Env) (node : Nat)
    (l : List ConnectedRoad) (i j : Nat) :
    ((CanMergeChecked env node l i j).isSome ↔ i < l.length ∧ j < l.length) ∧
    (i < l.length → j < l.length →
      CanMergeChecked env node l i j = some (CanMerge env node l i j)) := by
  constructor
  · constructor
    · intro h
      by_contra hcon
      rw [not_and_or] at hcon
      have hnone : CanMergeChecked env node l i j = none := by
        unfold CanMergeChecked
        rcases hcon with hi | hj
        · rw [List.getElem?_eq_none (show l.length ≤ i by omega)]
        · rw [List.getElem?_eq_none (show l.length ≤ j by omega)]
          rcases l[i]? with _ | v <;> rfl
      rw [hnone] at h
      simp at h
    · rintro ⟨hi, hj⟩
      unfold CanMergeChecked
      rw [List.getElem?_eq_getElem hi, List.getElem?_eq_getElem hj]
      rfl
  · intro hi hj
    unfold CanMergeChecked CanMerge
    rw [List.getElem?_eq_getElem hi, List.getElem?_eq_getElem hj,
      getD_eq_getElem default hi, getD_eq_getElem default hj]

/-- Witness for C10 at in-range indices on a degree-three intersection. -/
theorem canMerge_access_safety_witness :
    CanMergeChecked baseEnv 0
        [⟨0, 0, 0, true⟩, ⟨1, 10, 10, true⟩, ⟨2, 20, 20, true⟩] 0 2 =
      some (CanMerge baseEnv 0
        [⟨0, 0, 0, true⟩, ⟨1, 10, 10, true⟩, ⟨2, 20, 20, true⟩] 0 2) :=
  (canMerge_access_safety baseEnv 0 _ 0 2).2 (by norm_num) (by norm_num)

/-- C7: the corrected offset is clamped to half the angular gap to the
neighbouring road whenever the raw offset plus the guard margin would exceed
that gap; the applied offset never exceeds the gap, so the adjusted angle
never crosses the neighbouring angle, in either offset direction. -/
theorem corrected_offset_clamp (margin offset : ℚ)
    (road next_road : ConnectedRoad)
    (hoff : 0 ≤ offset) (hm : 0 ≤ margin)
    (hr0 : 0 ≤ road.angle) (hr1 : road.angle < 360)
    (hn0 : 0 ≤ next_road.angle) (hn1 : next_road.angle < 360) :
    (offset + margin > angularDeviation road.angle next_road.angle →
      get_corrected_offset margin offset road next_road =
        (1/2) * angularDeviation road.angle next_road.angle) ∧
    get_corrected_offset margin offset road next_road ≤
      angularDeviation road.angle next_road.angle ∧
    road.angle + get_corrected_offset margin offset road next_road ≤
      (if road.angle ≤ next_road.angle then next_road.angle
       else next_road.angle + 360) ∧
    (if next_road.angle ≤ road.angle then next_road.angle
     else next_road.angle - 360) ≤
      road.angle - get_corrected_offset margin offset road next_road := by
  unfold get_corrected_offset angularDeviation
  dsimp only
  rcases abs_cases (road.angle - next_road.angle) with ⟨he, hsg⟩ | ⟨he, hsg⟩ <;>
    rcases min_cases (360 - |road.angle - next_road.angle|)
      (|road.angle - next_road.angle|) with ⟨hq, hqr⟩ | ⟨hq, hqr⟩ <;>
    refine ⟨fun hgt => ?_, ?_, ?_, ?_⟩ <;>
    split_ifs <;>
    first
      | rfl
      | linarith

/-- Witness for C7: a 50-degree raw offset against a 20-degree gap is
clamped to 10 degrees. -/
theorem corrected_offset_clamp_witness :
    get_corrected_offset (1/10) 50 ⟨1, 100, 0, true⟩ ⟨2, 120, 0, true⟩ =
      (1/2) * angularDeviation 100 120 := by
  have h := corrected_offset_clamp (1/10) 50 ⟨1, 100, 0, true⟩ ⟨2, 120, 0, true⟩
    (by norm_num) (by norm_num) (by norm_num) (by norm_num) (by norm_num)
    (by norm_num)
  exact h.1 (by norm_num [angularDeviation])

/-- A degree-two (or smaller) intersection never merges. -/
lemma canMerge_false_of_small {env : Env} {node : Nat}
    {l : List ConnectedRoad} {i j : Nat} (h : l.length ≤ 2) :
    CanMerge env node l i j = false := by
  unfold CanMerge canMergeImpl
  dsimp only
  rw [if_pos h]

/-- C8: the adjustment step leaves the candidate untouched whenever the next
intersection along it is degenerate (at most one candidate), the next node
is more than 30 distance units away, or the next node offers at most one
candidate besides the back-bearing (adjacent edge count at most two); the
consistency hypothesis states that the generator yields at most one
candidate per adjacent edge of the target node, which is the collaborator
contract of the specification. -/
theorem adjust_skip_conditions (env : Env) (margin : ℚ) (node index : Nat)
    (l : List ConnectedRoad) (hidx : 1 ≤ index)
    (hcons : ∀ eid, (env.intersectionGenerator node eid).length ≤
      env.adjacentEdgeCount (env.getTarget eid))
    (hskip :
      (env.intersectionGenerator node (l.getD index default).eid).length ≤ 1 ∨
      env.haversineDistance (env.nodeCoordinates node)
        (env.nodeCoordinates (env.getTarget (l.getD index default).eid)) > 30 ∨
      env.adjacentEdgeCount (env.getTarget (l.getD index default).eid) ≤ 2) :
    adjustOne env margin node l index = l := by
  simp only [adjustOne]
  by_cases h1 : (env.intersectionGenerator node (l.getD index default).eid).length ≤ 1
  · rw [if_pos h1]
  · rw [if_neg h1]
    by_cases h2 : env.haversineDistance (env.nodeCoordinates node)
        (env.nodeCoordinates (env.getTarget (l.getD index default).eid)) > 30
    · rw [if_pos h2]
    · rw [if_neg h2]
      by_cases h3 : env.adjacentEdgeCount
          (env.getTarget (l.getD index default).eid) ≤ 1
      · rw [if_pos h3]
      · rw [if_neg h3]
        have hsmall : (env.intersectionGenerator node
            (l.getD index default).eid).length ≤ 2 := by
          rcases hskip with ha | hb | hc
          · omega
          · exact absurd hb h2
          · exact le_trans (hcons _) hc
        have hsmall2 : (env.intersectionGenerator node
            ((l[index]?).getD default).eid).length ≤ 2 := by
          simpa [List.getD_eq_getElem?_getD] using hsmall
        rw [if_neg (by simp [canMerge_false_of_small hsmall2]),
          if_neg (by simp [canMerge_false_of_small hsmall2])]

/-- Witness for C8: with an empty generator the first skip condition holds
and the candidate is unchanged. -/
theorem adjust_skip_conditions_witness :
    adjustOne baseEnv (1/10) 0 [⟨0, 0, 0, true⟩, ⟨1, 90, 90, true⟩] 1 =
      [⟨0, 0, 0, true⟩, ⟨1, 90, 90, true⟩] :=
  adjust_skip_conditions baseEnv (1/10) 0 1 _ (by norm_num)
    (fun eid => by simp [baseEnv])
    (Or.inl (by simp [baseEnv]))

/-- C3: when entries 0 and last can merge, the back-bearing step of
MergeSegregatedRoads reports a merge, shifts every interior angle (indices 1
to last-1) up by `(360 - angle[last]) / 2`, replaces entry 0 by the merge of
entries 0 and last with angle forced to 0, and drops the last entry.  The
conclusion fully determines the step output, so the `CanMerge 0 1` branch is
not applied in addition (the two directions are mutually exclusive by the
else-if of the source). -/
theorem backBearing_merge_characterization (env : Env) (node : Nat)
    (l : List ConnectedRoad)
    (h : CanMerge env node l 0 (l.length - 1) = true) :
    (firstMergeStep env node l).1 = true ∧
    (firstMergeStep env node l).2.length = l.length - 1 ∧
    (firstMergeStep env node l).2.getD 0 default =
      { merge (l.getD 0 default) (l.getD (l.length - 1) default) with
        angle := 0 } ∧
    ∀ i, 1 ≤ i → i + 1 < l.length →
      (firstMergeStep env node l).2.getD i default =
        { l.getD i default with
          angle := (l.getD i default).angle +
            (360 - (l.getD (l.length - 1) default).angle) / 2 } :=
  firstMergeStep_branch1 h

/-- Witness for C3 on a concrete mergeable intersection: the interior
candidate at 100 degrees is shifted to 105 degrees. -/
theorem backBearing_merge_characterization_witness :
    (firstMergeStep baseEnv 0
      [⟨0, 0, 0, true⟩, ⟨1, 100, 100, true⟩, ⟨2, 350, 350, true⟩]).2.getD 1
        default = ⟨1, 105, 100, true⟩ := by
  have h := backBearing_merge_characterization baseEnv 0
    [⟨0, 0, 0, true⟩, ⟨1, 100, 100, true⟩, ⟨2, 350, 350, true⟩]
    (by norm_num [CanMerge, canMergeImpl, baseEnv, EMPTY_NAMEID])
  have h2 := h.2.2.2 1 (by norm_num) (by norm_num)
  norm_num at h2 ⊢
  exact h2

/-- C9 counterexample: on a sorted, in-range input containing two distinct
unmergeable candidates at the same angle, the output of MergeSegregatedRoads
is not strictly ordered by angle (the duplicated angle survives). -/
theorem merge_output_not_strictly_sorted :
    SortedByAngle listDup ∧ InRange listDup ∧
    ¬ List.Pairwise (fun a b : ConnectedRoad => a.angle < b.angle)
        (MergeSegregatedRoads envUnnamed 0 listDup) := by
  refine ⟨?_, ?_, ?_⟩
  · intro j hj i hij
    norm_num [listDup] at hj
    interval_cases j <;> interval_cases i <;> norm_num [listDup]
  · intro r hr
    norm_num [listDup] at hr
    rcases hr with rfl | rfl | rfl <;> norm_num
  · intro hp
    have heval : MergeSegregatedRoads envUnnamed 0 listDup = listDup := by
      norm_num [MergeSegregatedRoads, firstMergeStep, CanMerge, canMergeImpl,
        EMPTY_NAMEID, envUnnamed, baseEnv, listDup, generalPass,
        List.insertionSort, List.orderedInsert, byAngle]
    rw [heval] at hp
    norm_num [listDup, List.pairwise_cons] at hp

/-- C9 (amended): after MergeSegregatedRoads the candidates are ordered
ascending by angle non-strictly; ties between distinct candidates at equal
angles can remain, so the order is not strict in general. -/
theorem merge_output_sorted (env : Env) (node : Nat)
    (l : List ConnectedRoad) :
    List.Sorted byAngle (MergeSegregatedRoads env node l) :=
  mergeSegregated_sorted env node l

/-- C1 counterexample: on a sorted input whose angles and bearings all lie
in `[0, 360)`, the general merge pass can produce the value 360 exactly
(combining 10 and 350 degrees), so the output of MergeSegregatedRoads
violates the strict bound `angle < 360 and bearing < 360`; adjustAngle can
also return exactly 360.  The closed bound 360 is the one the source
asserts. -/
theorem merge_step_reaches_360 :
    SortedByAngle listWrap ∧ InRange listWrap ∧
    (∀ r ∈ listWrap, r.angle < 360 ∧ r.bearing < 360) ∧
    ¬ (∀ r ∈ MergeSegregatedRoads envPairDetector 0 listWrap,
        r.angle < 360 ∧ r.bearing < 360) ∧
    adjustAngle 350 10 = 360 := by
  refine ⟨?_, ?_, ?_, ?_, ?_⟩
  · intro j hj i hij
    norm_num [listWrap] at hj
    interval_cases j <;> interval_cases i <;> norm_num [listWrap]
  · intro r hr
    norm_num [listWrap] at hr
    rcases hr with rfl | rfl | rfl <;> norm_num
  · intro r hr
    norm_num [listWrap] at hr
    rcases hr with rfl | rfl | rfl <;> norm_num
  · intro hall
    have heval : MergeSegregatedRoads envPairDetector 0 listWrap =
        [⟨0, 0, 0, true⟩, ⟨1, 360, 360, true⟩] := by
      norm_num [MergeSegregatedRoads, firstMergeStep, CanMerge, canMergeImpl,
        EMPTY_NAMEID, envPairDetector, baseEnv, listWrap, generalPass, merge,
        combineAngles, aroundZero, angularDeviation, mapWithIndex,
        List.insertionSort, List.orderedInsert, byAngle]
    rw [heval] at hall
    have := hall ⟨1, 360, 360, true⟩ (by norm_num)
    norm_num at this
  · norm_num [adjustAngle]

/-- C1 (amended): for a sorted input with angles and bearings in `[0, 360]`
and a generator honouring the same range, every candidate returned by
MergeSegregatedRoads and by the subsequent AdjustForJoiningRoads has angle
and bearing in the closed interval `[0, 360]` (matching the bound the source
asserts after each mutation; the endpoint 360 is attainable). -/
theorem normalization_range_invariant (env : Env) (margin : ℚ) (node : Nat)
    (l : List ConnectedRoad) (hs : SortedByAngle l) (hr : InRange l)
    (hg : GenRange env) :
    InRange (MergeSegregatedRoads env node l) ∧
    InRange (AdjustForJoiningRoads env margin node
      (MergeSegregatedRoads env node l)) := by
  have h1 := @mergeSegregated_inRange env node l hs hr
  exact ⟨h1, adjust_inRange hg h1⟩

/-- Witness for C1 (amended) on a concrete sorted in-range intersection. -/
theorem normalization_range_invariant_witness :
    InRange (MergeSegregatedRoads baseEnv 0 listWrap) ∧
    InRange (AdjustForJoiningRoads baseEnv (1/10) 0
      (MergeSegregatedRoads baseEnv 0 listWrap)) := by
  refine normalization_range_invariant baseEnv (1/10) 0 listWrap ?_ ?_ ?_
  · intro j hj i hij
    norm_num [listWrap] at hj
    interval_cases j <;> interval_cases i <;> norm_num [listWrap]
  · intro r hr
    norm_num [listWrap] at hr
    rcases hr with rfl | rfl | rfl <;> norm_num
  · intro n e r hmem
    simp [baseEnv] at hmem

/-- C6: when a back-bearing merge fires (in either direction) on an
intersection touching a roundabout, entry 0 of the MergeSegregatedRoads
result has entry_allowed false.  The structural hypotheses are the input
invariants of the data model: ordered by angle, values in range, and
strictly positive angles after the back-bearing entry. -/
theorem roundabout_merge_disables_entry (env : Env) (node : Nat)
    (l : List ConnectedRoad) (hs : SortedByAngle l) (hr : InRange l)
    (hp : PosTail l)
    (hround : (l.any fun road => (env.getEdgeData road.eid).roundabout) = true)
    (hm : CanMerge env node l 0 (l.length - 1) = true ∨
          CanMerge env node l 0 1 = true) :
    ((MergeSegregatedRoads env node l).getD 0 default).entry_allowed = false := by
  have hlen3 : 3 ≤ l.length := by
    rcases hm with h | h
    exacts [canMerge_length h, canMerge_length h]
  obtain ⟨hfst, hzero, hptail, hlen2⟩ := firstMergeStep_merged hs hr hp hm
  have hfr : InRange (firstMergeStep env node l).2 := firstMergeStep_inRange hs hr
  unfold MergeSegregatedRoads
  rw [if_neg (by omega)]
  dsimp only
  rw [if_pos (by rw [hfst, hround]; rfl)]
  set lset := (firstMergeStep env node l).2.set 0
    { (firstMergeStep env node l).2.getD 0 default with
      entry_allowed := false } with hlset
  have hlsetlen : lset.length = (firstMergeStep env node l).2.length :=
    List.length_set _ _ _
  have hlset0 : lset.getD 0 default =
      { (firstMergeStep env node l).2.getD 0 default with
        entry_allowed := false } :=
    getD_set_eq default (by omega)
  have hlsetrange : InRange lset := by
    intro r hrm
    rcases mem_of_mem_set hrm with hmem | rfl
    · exact hfr r hmem
    · have hb := getD_angle_bounds hfr 0
      exact ⟨by simpa using hb.1, by simpa using hb.2.1,
        by simpa using hb.2.2.1, by simpa using hb.2.2.2⟩
  have hlsetpos : PosTail lset := by
    intro i hi h1
    rw [hlset, getD_set_ne default (by omega)]
    exact hptail i (by omega) h1
  obtain ⟨hA, hB, hC, hD⟩ := generalPass_keepsHead env node (lset.length + 1) 2
    lset (by omega) hlsetrange hlsetpos
  have hgpzero : ((generalPass env node (lset.length + 1) 2 lset).getD 0
      default).angle = 0 := by
    rw [hC, hlset0]
    simpa using hzero
  have hgplen : 0 < (generalPass env node (lset.length + 1) 2 lset).length :=
    hD (by omega)
  rw [insertionSort_head_of_unique_min hgplen hB hgpzero, hC, hlset0]

/-- Witness for C6 on a concrete roundabout-touching mergeable
intersection. -/
theorem roundabout_merge_disables_entry_witness :
    ((MergeSegregatedRoads envRoundabout 0
      [⟨0, 0, 0, true⟩, ⟨1, 100, 100, true⟩, ⟨2, 350, 350, true⟩]).getD 0
        default).entry_allowed = false := by
  apply roundabout_merge_disables_entry
  · intro j hj i hij
    norm_num at hj
    interval_cases j <;> interval_cases i <;> norm_num
  · intro r hr
    norm_num at hr
    rcases hr with rfl | rfl | rfl <;> norm_num
  · intro i hi h1
    norm_num at hi
    interval_cases i <;> norm_num
  · norm_num [envRoundabout, baseEnv]
  · exact Or.inl (by norm_num [CanMerge, canMergeImpl, envRoundabout, baseEnv,
      EMPTY_NAMEID])

end Claims

end Osrm
